import Mathlib

/- Shallow embedding of the rtimelog core: the log store (src/store.rs:
   parsing, serialization, range queries, history, append) and the
   activity aggregator (src/activity.rs).  Strings are modelled as lists
   of Unicode code points (List Nat); the chrono NaiveDateTime type is
   modelled as a record of calendar fields ordered by their position on
   the time line in seconds since 1970-01-01. -/

/-- Convenience embedding of a Lean string literal into the model. -/
def strLit (s : String) : List Nat :=
  s.toList.map Char.toNat

/-- Model of chrono NaiveDateTime: a proleptic-Gregorian calendar date
    plus a wall-clock time of day. -/
structure NaiveDateTime where
  year : Int
  month : Nat
  day : Nat
  hour : Nat
  minute : Nat
  second : Nat
deriving DecidableEq, Repr

/-- Model of chrono NaiveDate, the date part only. -/
structure NaiveDate where
  year : Int
  month : Nat
  day : Nat
deriving DecidableEq, Repr

/-- Number of days from 1970-01-01 to the given civil date, the standard
    days-from-civil computation on the proleptic Gregorian calendar.
    Note that Int division and remainder here are floor-style. -/
def daysFromCivil (y : Int) (m d : Nat) : Int :=
  let yr : Int := if m ≤ 2 then y - 1 else y
  let era : Int := yr / 400
  let yoe : Int := yr - era * 400
  let mp : Int := if 2 < m then (m : Int) - 3 else (m : Int) + 9
  let doy : Int := (153 * mp + 2) / 5 + (d : Int) - 1
  let doe : Int := yoe * 365 + yoe / 4 - yoe / 100 + doy
  era * 146097 + doe - 719468

def NaiveDate.toDays (d : NaiveDate) : Int :=
  daysFromCivil d.year d.month d.day

def NaiveDateTime.toDays (t : NaiveDateTime) : Int :=
  daysFromCivil t.year t.month t.day

/-- Position on the time line in seconds; chrono orders NaiveDateTime
    values chronologically, which this number models. -/
def NaiveDateTime.toSecs (t : NaiveDateTime) : Int :=
  t.toDays * 86400 + ((t.hour * 3600 + t.minute * 60 + t.second : Nat) : Int)

/-- The NaiveDateTime::date accessor. -/
def NaiveDateTime.date (t : NaiveDateTime) : NaiveDate :=
  { year := t.year, month := t.month, day := t.day }

/-- Gregorian leap year rule. -/
def isLeapYear (y : Int) : Bool :=
  y % 4 == 0 && (y % 100 != 0 || y % 400 == 0)

/-- Length of a calendar month.  The value for arguments outside 1..12
    never matters; it is 31 so that the length is always at least 28. -/
def daysInMonth (y : Int) (m : Nat) : Nat :=
  if m = 2 then (if isLeapYear y then 29 else 28)
  else if m = 4 ∨ m = 6 ∨ m = 9 ∨ m = 11 then 30
  else 31

/-- Successor of a calendar date. -/
def nextDate (d : NaiveDate) : NaiveDate :=
  if d.day < daysInMonth d.year d.month then
    { year := d.year, month := d.month, day := d.day + 1 }
  else if d.month < 12 then
    { year := d.year, month := d.month + 1, day := 1 }
  else
    { year := d.year + 1, month := 1, day := 1 }

/-- Single timelog entry (store.rs). -/
structure Entry where
  stop : NaiveDateTime
  task : List Nat
deriving DecidableEq, Repr

/-- Collection of all entries (store.rs); the file path is kept as an
    abstract optional string. -/
structure Timelog where
  entries : List Entry
  filename : Option (List Nat)
deriving DecidableEq, Repr

/-- Loop of Timelog::get_history: the Rust code keeps a HashSet of seen
    names, used only through contains/insert, modelled as a list used
    only through membership. -/
def historyLoop (seen : List (List Nat)) : List Entry → List (List Nat)
  | [] => []
  | e :: rest =>
    if e.task ∈ seen then historyLoop seen rest
    else e.task :: historyLoop (e.task :: seen) rest

/-- Timelog::get_history: distinct task names of a slice, keeping only
    the first occurrence of each. -/
def Timelog.get_history (entries : List Entry) : List (List Nat) :=
  historyLoop [] entries

/-- Timelog::add.  The wall clock is an external collaborator, so the
    current time is an argument; the Rust code truncates it to whole
    seconds, which a NaiveDateTime value already is here. -/
def Timelog.add (tl : Timelog) (now : NaiveDateTime) (task : List Nat) : Timelog :=
  { entries := tl.entries ++ [{ stop := now, task := task }],
    filename := tl.filename }

/-- Timelog::get_time_range.  Iterator::position with unwrap_or(len) is
    List.findIdx, which also yields the length when nothing matches.
    Rust slicing entries[first..last] panics when first exceeds last,
    modelled by the none result. -/
def Timelog.get_time_range (entries : List Entry) (b e : Int) :
    Option (List Entry) :=
  let first := entries.findIdx (fun x => decide (b ≤ x.stop.toSecs))
  let last := entries.findIdx (fun x => decide (e < x.stop.toSecs))
  if first ≤ last then some ((entries.take last).drop first) else none

/-- Spec-side predicate: the stop of the entry lies in [b, e]. -/
def inRange (b e : Int) (x : Entry) : Bool :=
  decide (b ≤ x.stop.toSecs) && decide (x.stop.toSecs ≤ e)

/-- The store invariant: entries sorted non-decreasing by stop. -/
def sortedByStop (l : List Entry) : Prop :=
  List.Pairwise (fun a b => a.stop.toSecs ≤ b.stop.toSecs) l

/-- Spec-side stable de-duplication, written as a left fold that appends
    a name exactly when it has not appeared yet. -/
def firstOccurrences (l : List (List Nat)) : List (List Nat) :=
  l.foldl (fun acc t => if t ∈ acc then acc else acc ++ [t]) []

/-- Helper form of first-occurrence de-duplication with an explicit set
    of already seen names. -/
def firstOccNew (seen : List (List Nat)) : List (List Nat) → List (List Nat)
  | [] => []
  | t :: ts =>
    if t ∈ seen then firstOccNew seen ts
    else t :: firstOccNew (t :: seen) ts

-- Sanity checks of the date model against known calendar facts.
example : daysFromCivil 1970 1 1 = 0 := by decide
example : daysFromCivil 2022 6 8 = 19151 := by decide
example : (daysFromCivil 2022 6 8 + 3) % 7 = 2 := by decide
example : (daysFromCivil 2023 1 1 + 3) % 7 = 6 := by decide

/-- Monday-based weekday number of a day count, modelling
    Weekday::num_days_from_monday; 1970-01-01 was a Thursday (3). -/
def weekdayMon0 (days : Int) : Int :=
  (days + 3) % 7

/-- Number of ISO 8601 weeks in a year: 53 when 1 January falls on a
    Thursday, or on a Wednesday in a leap year, otherwise 52. -/
def isoWeeksInYear (y : Int) : Int :=
  if weekdayMon0 (daysFromCivil y 1 1) = 3 ∨
     (isLeapYear y = true ∧ weekdayMon0 (daysFromCivil y 1 1) = 2)
  then 53 else 52

/-- ISO week of a date as the pair (ISO week-year, week number),
    modelling chrono NaiveDate::iso_week. -/
def isoWeekYW (d : NaiveDate) : Int × Int :=
  let dc := d.toDays
  let ord := dc - daysFromCivil d.year 1 1 + 1
  let w := (ord - weekdayMon0 dc + 9) / 7
  if w < 1 then (d.year - 1, isoWeeksInYear (d.year - 1))
  else if isoWeeksInYear d.year < w then (d.year + 1, 1)
  else (d.year, w)

/-- NaiveDate::from_isoywd_opt specialised to Monday, returning the day
    count of that Monday; none when the week number is out of range for
    the given year, in which case the Rust caller unwraps and panics. -/
def fromIsoywdMonday (y w : Int) : Option Int :=
  if 1 ≤ w ∧ w ≤ isoWeeksInYear y then
    some (daysFromCivil y 1 4 - weekdayMon0 (daysFromCivil y 1 4) + (w - 1) * 7)
  else none

/-- Timelog::get_week.  The Rust code combines the CALENDAR year of the
    argument with its ISO week number and unwraps both from_isoywd_opt
    results; either panic, or the slicing panic inside get_time_range,
    is modelled by none.  The two Mondays enter get_time_range at time
    00:00, hence as day count times 86400 seconds. -/
def Timelog.get_week (entries : List Entry) (day : NaiveDate) :
    Option (List Entry) :=
  (fromIsoywdMonday day.year (isoWeekYW day).2).bind (fun b =>
    (fromIsoywdMonday day.year ((isoWeekYW day).2 + 1)).bind (fun e =>
      Timelog.get_time_range entries (b * 86400) (e * 86400)))

/-- Day count of the Monday opening the ISO week that contains the date. -/
def mondayOfWeek (d : NaiveDate) : Int :=
  d.toDays - weekdayMon0 d.toDays

/-- Spec-side reading of the week query: the stored entries with stop in
    [Monday 00:00, following Monday 00:00), the right end excluded. -/
def isoWeekEntries (entries : List Entry) (d : NaiveDate) : List Entry :=
  entries.filter (fun x =>
    decide (mondayOfWeek d * 86400 ≤ x.stop.toSecs) &&
    decide (x.stop.toSecs < (mondayOfWeek d + 7) * 86400))

/-- Activity: one task name with its accumulated duration
    (chrono Duration, modelled in seconds). -/
structure Activity where
  name : List Nat
  duration : Int
deriving DecidableEq, Repr

/-- Activities: the per-task breakdown plus the two totals. -/
structure Activities where
  activities : List Activity
  total_work : Int
  total_slack : Int
deriving DecidableEq, Repr

/-- Rust: entry.task.starts_with("**"); 42 is the star. -/
def isSlackTask (t : List Nat) : Bool :=
  match t with
  | 42 :: 42 :: _ => true
  | _ => false

/-- The find/push match inside new_from_entries: add the duration to the
    first activity of that name, else push a new one at the end. -/
def addDuration : List Activity → List Nat → Int → List Activity
  | [], t, dur => [{ name := t, duration := dur }]
  | a :: rest, t, dur =>
    if a.name = t then { name := a.name, duration := a.duration + dur } :: rest
    else a :: addDuration rest t dur

/-- Loop of Activities::new_from_entries once the first entry has seeded
    prev_stop; afterwards prev_stop is always the stop of the entry just
    handled, whether or not it contributed. -/
def aggLoop (prev : NaiveDateTime) (acts : List Activity) (work slack : Int) :
    List Entry → Activities
  | [] => { activities := acts, total_work := work, total_slack := slack }
  | e :: rest =>
    if prev.day ≠ e.stop.day then aggLoop e.stop acts work slack rest
    else if isSlackTask e.task then
      aggLoop e.stop (addDuration acts e.task (e.stop.toSecs - prev.toSecs))
        work (slack + (e.stop.toSecs - prev.toSecs)) rest
    else
      aggLoop e.stop (addDuration acts e.task (e.stop.toSecs - prev.toSecs))
        (work + (e.stop.toSecs - prev.toSecs)) slack rest

/-- Activities::new_from_entries.  The first entry only seeds prev_stop. -/
def Activities.new_from_entries : List Entry → Activities
  | [] => { activities := [], total_work := 0, total_slack := 0 }
  | e :: rest => aggLoop e.stop [] 0 0 rest

/-- Consecutive (previous stop, current entry) pairs, starting from a
    given previous stop. -/
def pairsFrom (p : NaiveDateTime) : List Entry → List (NaiveDateTime × Entry)
  | [] => []
  | e :: rest => (p, e) :: pairsFrom e.stop rest

/-- All consecutive pairs of a slice; empty for fewer than two entries. -/
def allPairs : List Entry → List (NaiveDateTime × Entry)
  | [] => []
  | e :: rest => pairsFrom e.stop rest

/-- The day-boundary test of the aggregator: chrono Datelike::day is the
    day-of-month accessor, so this compares day-of-month numbers. -/
def sameDayPair (pc : NaiveDateTime × Entry) : Bool :=
  pc.1.day == pc.2.stop.day

/-- The pairs whose current entry contributes a duration. -/
def contribPairs (es : List Entry) : List (NaiveDateTime × Entry) :=
  (allPairs es).filter sameDayPair

/-- Duration of one pair: current stop minus previous stop, in seconds. -/
def pairDur (pc : NaiveDateTime × Entry) : Int :=
  pc.2.stop.toSecs - pc.1.toSecs

/-- Total work duration of a pair list: the non-slack contributions. -/
def pairsWork (ps : List (NaiveDateTime × Entry)) : Int :=
  ((ps.filter (fun pc => !isSlackTask pc.2.task)).map pairDur).sum

/-- Total slack duration of a pair list: the slack contributions. -/
def pairsSlack (ps : List (NaiveDateTime × Entry)) : Int :=
  ((ps.filter (fun pc => isSlackTask pc.2.task)).map pairDur).sum

/-- Total duration a pair list assigns to one task name. -/
def sumDurFor (ps : List (NaiveDateTime × Entry)) (t : List Nat) : Int :=
  ((ps.filter (fun pc => pc.2.task == t)).map pairDur).sum

/-- Folding a pair list into an activity list, starting from acc. -/
def pairsActs (acc : List Activity) (ps : List (NaiveDateTime × Entry)) :
    List Activity :=
  ps.foldl (fun a pc => addDuration a pc.2.task (pairDur pc)) acc

/-- Spec-side work total of a slice. -/
def specWork (es : List Entry) : Int :=
  pairsWork (contribPairs es)

/-- Spec-side slack total of a slice. -/
def specSlack (es : List Entry) : Int :=
  pairsSlack (contribPairs es)

/-- Spec-side total duration of one task within a slice. -/
def taskTotal (es : List Entry) (t : List Nat) : Int :=
  sumDurFor (contribPairs es) t

/-- Spec-side per-task breakdown: the contributing task names in
    first-occurrence order, each with its total. -/
def specActivities (es : List Entry) : List Activity :=
  (firstOccurrences ((contribPairs es).map (fun pc => pc.2.task))).map
    (fun t => { name := t, duration := taskTotal es t })

/-- ASCII whitespace: space, tab, carriage return, line feed.  This is
    the whitespace of canonical log text; the full Unicode White_Space
    set trimmed by the real str::trim is embedded separately as
    isUnicodeWS below. -/
def isWS (c : Nat) : Bool :=
  decide (c = 32 ∨ c = 9 ∨ c = 13 ∨ c = 10)

/-- Trimming restricted to ASCII whitespace; on canonical log text it
    coincides with str::trim, whose full Unicode behaviour is embedded
    separately as trimUnicode below. -/
def trimStr (s : List Nat) : List Nat :=
  ((s.dropWhile isWS).reverse.dropWhile isWS).reverse

/-- str::split_once with the two-character separator colon-space: split
    at the first occurrence, none when there is no occurrence. -/
def splitOnceCS : List Nat → Option (List Nat × List Nat)
  | [] => none
  | [_] => none
  | c1 :: c2 :: rest =>
    if c1 == 58 && c2 == 32 then some ([], rest)
    else
      match splitOnceCS (c2 :: rest) with
      | some p => some (c1 :: p.1, p.2)
      | none => none

/-- Decimal digit test on code points. -/
def isDigitCh (c : Nat) : Bool :=
  decide (48 ≤ c) && decide (c ≤ 57)

/-- Value of a decimal digit code point. -/
def digitVal (c : Nat) : Nat :=
  c - 48

/-- Time parsing restricted to the canonical zero-padded sixteen
    character form of %Y-%m-%d %H:%M: four fixed separators, twelve
    digits, a calendar validity check, seconds defaulting to zero.
    This is the literal reading of the zero-padded format named by the
    spec, and it is exactly the form format_store itself writes, where
    it coincides with chrono; the lenient parser the program really
    calls is embedded separately as parse_from_str below. -/
def parseTime (s : List Nat) : Option NaiveDateTime :=
  match s with
  | [y1, y2, y3, y4, s1, m1, m2, s2, d1, d2, s3, h1, h2, s4, n1, n2] =>
    if s1 == 45 && s2 == 45 && s3 == 32 && s4 == 58 &&
       isDigitCh y1 && isDigitCh y2 && isDigitCh y3 && isDigitCh y4 &&
       isDigitCh m1 && isDigitCh m2 && isDigitCh d1 && isDigitCh d2 &&
       isDigitCh h1 && isDigitCh h2 && isDigitCh n1 && isDigitCh n2 then
      let y := digitVal y1 * 1000 + digitVal y2 * 100 + digitVal y3 * 10 + digitVal y4
      let mo := digitVal m1 * 10 + digitVal m2
      let da := digitVal d1 * 10 + digitVal d2
      let ho := digitVal h1 * 10 + digitVal h2
      let mi := digitVal n1 * 10 + digitVal n2
      if decide (1 ≤ mo) && decide (mo ≤ 12) && decide (1 ≤ da) &&
         decide (da ≤ daysInMonth (y : Int) mo) && decide (ho ≤ 23) &&
         decide (mi ≤ 59) then
        some { year := (y : Int), month := mo, day := da,
               hour := ho, minute := mi, second := 0 }
      else none
    else none
  | _ => none

/-- Timelog::parse_line: trim, skip empty lines, split at the first
    colon-space, parse the time part; warnings are only diagnostics. -/
def Timelog.parse_line (line : List Nat) : Option Entry :=
  let l := trimStr line
  if l = [] then none
  else
    match splitOnceCS l with
    | some p =>
      match parseTime p.1 with
      | some dt => some { stop := dt, task := p.2 }
      | none => none
    | none => none

/-- str::lines modelled as splitting on the line feed character; the
    extra empty piece this produces after a trailing newline yields no
    entry, so Timelog::parse is unaffected. -/
def splitOnNl : List Nat → List (List Nat)
  | [] => [[]]
  | c :: rest =>
    if c == 10 then [] :: splitOnNl rest
    else
      match splitOnNl rest with
      | [] => [[c]]
      | l :: ls => (c :: l) :: ls

/-- Loop of Timelog::parse; none models the goes-back-in-time panic. -/
def parseLines (prev : Option NaiveDateTime) : List (List Nat) → Option (List Entry)
  | [] => some []
  | l :: rest =>
    match Timelog.parse_line l with
    | none => parseLines prev rest
    | some e =>
      match prev with
      | some p =>
        if e.stop.toSecs < p.toSecs then none
        else
          match parseLines (some e.stop) rest with
          | some es => some (e :: es)
          | none => none
      | none =>
        match parseLines (some e.stop) rest with
        | some es => some (e :: es)
        | none => none

/-- Timelog::parse of a whole text. -/
def Timelog.parse (raw : List Nat) : Option (List Entry) :=
  parseLines none (splitOnNl raw)

/-- Monotonicity of a parsed entry list relative to a previous stop:
    true exactly when the parse loop accepts it without panicking. -/
def monoFrom : Option NaiveDateTime → List Entry → Bool
  | _, [] => true
  | prev, e :: rest =>
    match prev with
    | some p =>
      if e.stop.toSecs < p.toSecs then false else monoFrom (some e.stop) rest
    | none => monoFrom (some e.stop) rest

/-- char::is_whitespace: the Unicode White_Space code points (tab
    through carriage return, space, next line, no-break space, ogham
    space mark, the U+2000 to U+200A spaces, line and paragraph
    separator, narrow no-break space, medium mathematical space, and
    ideographic space). -/
def isUnicodeWS (c : Nat) : Bool :=
  decide ((9 ≤ c ∧ c ≤ 13) ∨ c = 32 ∨ c = 133 ∨ c = 160 ∨ c = 5760 ∨
    (8192 ≤ c ∧ c ≤ 8202) ∨ c = 8232 ∨ c = 8233 ∨ c = 8239 ∨ c = 8287 ∨ c = 12288)

/-- str::trim as called by the real parse_line: remove leading and
    trailing Unicode whitespace, not just the ASCII subset. -/
def trimUnicode (s : List Nat) : List Nat :=
  ((s.dropWhile isUnicodeWS).reverse.dropWhile isUnicodeWS).reverse

/-- chrono scan::number: greedily consume up to maxw leading ASCII
    digits and return their value with the rest of the string; fewer
    than minw digits is an error.  chrono additionally errors on i64
    overflow, which on this format can only happen for an explicitly
    signed year, and the year range check in parse_from_str below
    rejects such values as well, so the observable result agrees. -/
def scanNumber (minw maxw : Nat) (s : List Nat) : Option (Nat × List Nat) :=
  let ds := (s.take maxw).takeWhile isDigitCh
  if ds.length < minw then none
  else some (ds.foldl (fun n c => n * 10 + digitVal c) 0, s.drop ds.length)

/-- chrono parsing of a signed numeric item (the year): skip leading
    Unicode whitespace, then with an explicit sign take one or more
    digits without a width limit, and without a sign take one up to
    width digits. -/
def parseNumSigned (width : Nat) (s : List Nat) : Option (Int × List Nat) :=
  match s.dropWhile isUnicodeWS with
  | 45 :: rest => (scanNumber 1 rest.length rest).map (fun p => (-(p.1 : Int), p.2))
  | 43 :: rest => (scanNumber 1 rest.length rest).map (fun p => ((p.1 : Int), p.2))
  | t => (scanNumber 1 width t).map (fun p => ((p.1 : Int), p.2))

/-- chrono parsing of an unsigned numeric item: skip leading Unicode
    whitespace, then take one up to width digits. -/
def parseNumU (width : Nat) (s : List Nat) : Option (Nat × List Nat) :=
  scanNumber 1 width (s.dropWhile isUnicodeWS)

/-- A literal item of the format string must match exactly, with no
    whitespace skipping. -/
def parseLit (c : Nat) : List Nat → Option (List Nat)
  | [] => none
  | d :: rest => if d = c then some rest else none

/-- NaiveDateTime::parse_from_str with the format %Y-%m-%d %H:%M under
    the actual chrono item semantics: %Y is signed, one to four digits
    unsigned or unlimited digits after an explicit sign; %m %d %H %M
    take one or two digits; every numeric item first skips Unicode
    whitespace; the space in the format matches any whitespace run; the
    dash and colon literals match exactly; the whole string must be
    consumed; seconds default to zero; and the fields must form a valid
    calendar date and time inside the chrono year range. -/
def parse_from_str (s : List Nat) : Option NaiveDateTime :=
  (parseNumSigned 4 s).bind (fun py =>
  (parseLit 45 py.2).bind (fun s2 =>
  (parseNumU 2 s2).bind (fun pm =>
  (parseLit 45 pm.2).bind (fun s4 =>
  (parseNumU 2 s4).bind (fun pd =>
  (parseNumU 2 (pd.2.dropWhile isUnicodeWS)).bind (fun ph =>
  (parseLit 58 ph.2).bind (fun s8 =>
  (parseNumU 2 s8).bind (fun pn =>
    if pn.2 = [] ∧ -262144 ≤ py.1 ∧ py.1 ≤ 262143 ∧ 1 ≤ pm.1 ∧ pm.1 ≤ 12 ∧
       1 ≤ pd.1 ∧ pd.1 ≤ daysInMonth py.1 pm.1 ∧ ph.1 ≤ 23 ∧ pn.1 ≤ 59 then
      some { year := py.1, month := pm.1, day := pd.1, hour := ph.1, minute := pn.1, second := 0 }
    else none))))))))

/-- Timelog::parse_line with the chrono-faithful time parser and the
    real str::trim: trim Unicode whitespace, skip empty lines, split at
    the first colon-space, parse the time part with parse_from_str;
    warnings are only diagnostics. -/
def Timelog.parse_line_full (line : List Nat) : Option Entry :=
  let l := trimUnicode line
  if l = [] then none
  else
    match splitOnceCS l with
    | some p =>
      match parse_from_str p.1 with
      | some dt => some { stop := dt, task := p.2 }
      | none => none
    | none => none

/-- Loop of Timelog::parse over the chrono-faithful line parser; none
    models the goes-back-in-time panic. -/
def parseLinesFull (prev : Option NaiveDateTime) : List (List Nat) → Option (List Entry)
  | [] => some []
  | l :: rest =>
    match Timelog.parse_line_full l with
    | none => parseLinesFull prev rest
    | some e =>
      match prev with
      | some p =>
        if e.stop.toSecs < p.toSecs then none
        else
          match parseLinesFull (some e.stop) rest with
          | some es => some (e :: es)
          | none => none
      | none =>
        match parseLinesFull (some e.stop) rest with
        | some es => some (e :: es)
        | none => none

/-- Two-digit zero-padded decimal rendering. -/
def fmt2 (n : Nat) : List Nat :=
  [48 + n / 10, 48 + n % 10]

/-- Four-digit zero-padded decimal rendering. -/
def fmt4 (n : Nat) : List Nat :=
  [48 + n / 1000, 48 + n / 100 % 10, 48 + n / 10 % 10, 48 + n % 10]

/-- Display of a NaiveDateTime with TIME_FMT, %Y-%m-%d %H:%M; faithful
    for the years 0..9999 that the parser accepts. -/
def fmtDT (t : NaiveDateTime) : List Nat :=
  fmt4 t.year.toNat ++ [45] ++ fmt2 t.month ++ [45] ++ fmt2 t.day ++ [32] ++
    fmt2 t.hour ++ [58] ++ fmt2 t.minute

/-- Display of an Entry: the time, a colon-space separator, the task. -/
def fmtEntry (e : Entry) : List Nat :=
  fmtDT e.stop ++ [58, 32] ++ e.task

/-- Loop of Timelog::format_store with the previous date threaded
    through: an empty line between different days, then the entry line. -/
def formatLoop (prev : Option NaiveDate) : List Entry → List Nat
  | [] => []
  | e :: rest =>
    (match prev with
     | some p => if p ≠ e.stop.date then [10] else []
     | none => []) ++ fmtEntry e ++ [10] ++ formatLoop (some e.stop.date) rest

/-- Timelog::format_store. -/
def Timelog.format_store (entries : List Entry) : List Nat :=
  formatLoop none entries

/-- Calendar validity of a date-time as guaranteed by the parser. -/
def ValidDT (t : NaiveDateTime) : Prop :=
  0 ≤ t.year ∧ t.year ≤ 9999 ∧ 1 ≤ t.month ∧ t.month ≤ 12 ∧
  1 ≤ t.day ∧ t.day ≤ daysInMonth t.year t.month ∧
  t.hour ≤ 23 ∧ t.minute ≤ 59 ∧ t.second = 0

/-- Task shape as guaranteed by the parser: non-empty, free of line
    feeds, and with no trailing whitespace. -/
def TaskInv (t : List Nat) : Prop :=
  t ≠ [] ∧ (∀ c ∈ t, c ≠ 10) ∧ ∀ c, t.getLast? = some c → isWS c = false

/-- Concrete entry: Monday 2019-12-30, a date in ISO week 1 of 2020. -/
def eDec30 : Entry :=
  { stop := { year := 2019, month := 12, day := 30, hour := 10, minute := 0, second := 0 },
    task := strLit ("code review") }

/-- Concrete entry: Monday 2022-06-13 at exactly 00:00. -/
def eJun13 : Entry :=
  { stop := { year := 2022, month := 6, day := 13, hour := 0, minute := 0, second := 0 },
    task := strLit ("monday work") }

/-- Concrete entry on 2022-06-09. -/
def eJun9 : Entry :=
  { stop := { year := 2022, month := 6, day := 9, hour := 6, minute := 2, second := 0 },
    task := strLit ("arrived") }

/-- Concrete entry: late on 2022-06-10. -/
def eCross1 : Entry :=
  { stop := { year := 2022, month := 6, day := 10, hour := 23, minute := 0, second := 0 },
    task := strLit ("arrived") }

/-- Concrete entry: exactly one month after eCross1, same day-of-month. -/
def eCross2 : Entry :=
  { stop := { year := 2022, month := 7, day := 10, hour := 1, minute := 0, second := 0 },
    task := strLit ("work") }

/-- Concrete entry: late on 2022-06-09. -/
def eNext1 : Entry :=
  { stop := { year := 2022, month := 6, day := 9, hour := 23, minute := 0, second := 0 },
    task := strLit ("arrived") }

/-- Concrete entry: early on the following day 2022-06-10. -/
def eNext2 : Entry :=
  { stop := { year := 2022, month := 6, day := 10, hour := 1, minute := 0, second := 0 },
    task := strLit ("work") }

/-- Concrete well-formed log text. -/
def sampleRaw : List Nat :=
  strLit ("2022-06-09 06:02: arrived\n2022-06-09 06:27: email\n\n2022-06-10 07:00: **tea\n")

/-- The entries sampleRaw parses to. -/
def sampleEntries : List Entry :=
  [ { stop := { year := 2022, month := 6, day := 9, hour := 6, minute := 2, second := 0 },
      task := strLit ("arrived") },
    { stop := { year := 2022, month := 6, day := 9, hour := 6, minute := 27, second := 0 },
      task := strLit ("email") },
    { stop := { year := 2022, month := 6, day := 10, hour := 7, minute := 0, second := 0 },
      task := strLit ("**tea") } ]

/-- Concrete log text whose second line goes back in time. -/
def badRaw : List Nat :=
  strLit ("2022-06-09 06:02: arrived\n2022-06-08 07:32: back\n")

/-- Concrete log text with two equal consecutive timestamps. -/
def eqRaw : List Nat :=
  strLit ("2022-06-09 06:02: a\n2022-06-09 06:02: b\n")

/-- The entries eqRaw parses to. -/
def eqEntries : List Entry :=
  [ { stop := { year := 2022, month := 6, day := 9, hour := 6, minute := 2, second := 0 },
      task := strLit ("a") },
    { stop := { year := 2022, month := 6, day := 9, hour := 6, minute := 2, second := 0 },
      task := strLit ("b") } ]

-- ----------------------------------------------------------------------
-- Lemmas about get_time_range
-- ----------------------------------------------------------------------

theorem findIdx_le_of_imp {p q : Entry → Bool} (l : List Entry)
    (h : ∀ x, q x = true → p x = true) : l.findIdx p ≤ l.findIdx q := by
  induction l with
  | nil => simp
  | cons x xs ih =>
    by_cases hq : q x = true
    · simp [List.findIdx_cons, hq, h x hq]
    · by_cases hp : p x = true
      · simp [List.findIdx_cons, hp]
      · simp only [List.findIdx_cons, Bool.not_eq_true] at hp hq
        simp [List.findIdx_cons, hp, hq]
        omega

theorem findIdx_eq_zero_of_all {p : Entry → Bool} (l : List Entry)
    (h : ∀ x ∈ l, p x = true) : l.findIdx p = 0 := by
  cases l with
  | nil => simp
  | cons x xs => simp [List.findIdx_cons, h x (by simp)]

theorem first_le_last (l : List Entry) (b e : Int) (hbe : b ≤ e) :
    l.findIdx (fun x => decide (b ≤ x.stop.toSecs)) ≤
      l.findIdx (fun x => decide (e < x.stop.toSecs)) := by
  apply findIdx_le_of_imp
  intro x hx
  simp only [decide_eq_true_eq] at hx ⊢
  omega

theorem slice_eq_filter (b e : Int) (l : List Entry)
    (hs : sortedByStop l) (hbe : b ≤ e) :
    (l.take (l.findIdx (fun x => decide (e < x.stop.toSecs)))).drop
        (l.findIdx (fun x => decide (b ≤ x.stop.toSecs))) =
      l.filter (inRange b e) := by
  induction l with
  | nil => simp
  | cons x xs ih =>
    rw [sortedByStop, List.pairwise_cons] at hs
    obtain ⟨hx, hs2⟩ := hs
    by_cases hb : b ≤ x.stop.toSecs
    · by_cases he : e < x.stop.toSecs
      · have h0 : ¬ (x.stop.toSecs ≤ e) := by omega
        simp [List.findIdx_cons, hb, he, inRange, h0]
        intro y hy
        have := hx y hy
        omega
      · have h0 : x.stop.toSecs ≤ e := by omega
        have hfz : xs.findIdx (fun y => decide (b ≤ y.stop.toSecs)) = 0 := by
          apply findIdx_eq_zero_of_all
          intro y hy
          have := hx y hy
          simp only [decide_eq_true_eq]
          omega
        have ihx := ih hs2
        rw [hfz, List.drop_zero] at ihx
        simp [List.findIdx_cons, hb, he, inRange, h0, ihx]
    · have hxe : ¬ (e < x.stop.toSecs) := by omega
      have hin : inRange b e x = false := by
        simp only [inRange, Bool.and_eq_false_iff, decide_eq_false_iff_not]
        left
        omega
      have ihx := ih hs2
      simp [List.findIdx_cons, hb, hxe, List.filter_cons, hin]
      exact ihx

theorem get_time_range_eq_filter (b e : Int) (l : List Entry)
    (hs : sortedByStop l) (hbe : b ≤ e) :
    Timelog.get_time_range l b e = some (l.filter (inRange b e)) := by
  simp only [Timelog.get_time_range]
  rw [if_pos (first_le_last l b e hbe)]
  rw [slice_eq_filter b e l hs hbe]

-- ----------------------------------------------------------------------
-- Lemmas about ISO weeks and get_week
-- ----------------------------------------------------------------------

theorem jan4_days (y : Int) : daysFromCivil y 1 4 = daysFromCivil y 1 1 + 3 := by
  simp only [daysFromCivil]
  norm_num
  omega

theorem isoWeek_same_year (d : NaiveDate) (h1 : (isoWeekYW d).1 = d.year) :
    (isoWeekYW d).2 =
      (d.toDays - daysFromCivil d.year 1 1 + 1 - weekdayMon0 d.toDays + 9) / 7 ∧
    1 ≤ (isoWeekYW d).2 ∧ (isoWeekYW d).2 ≤ isoWeeksInYear d.year := by
  simp only [isoWeekYW] at h1 ⊢
  by_cases hlt : (d.toDays - daysFromCivil d.year 1 1 + 1 - weekdayMon0 d.toDays + 9) / 7 < 1
  · rw [if_pos hlt] at h1
    exfalso
    simp only at h1
    omega
  · rw [if_neg hlt] at h1 ⊢
    by_cases hgt : isoWeeksInYear d.year <
        (d.toDays - daysFromCivil d.year 1 1 + 1 - weekdayMon0 d.toDays + 9) / 7
    · rw [if_pos hgt] at h1
      exfalso
      simp only at h1
      omega
    · rw [if_neg hgt]
      refine ⟨rfl, ?_, ?_⟩ <;> dsimp only <;> omega

theorem get_week_same_year (l : List Entry) (d : NaiveDate)
    (hs : sortedByStop l)
    (h1 : (isoWeekYW d).1 = d.year)
    (h2 : (isoWeekYW d).2 < isoWeeksInYear d.year) :
    Timelog.get_week l d =
      some (l.filter (inRange (mondayOfWeek d * 86400)
        ((mondayOfWeek d + 7) * 86400))) := by
  obtain ⟨hw, hwlo, hwhi⟩ := isoWeek_same_year d h1
  have hB : daysFromCivil d.year 1 4 - weekdayMon0 (daysFromCivil d.year 1 4) +
      ((isoWeekYW d).2 - 1) * 7 = mondayOfWeek d := by
    rw [hw, jan4_days]
    simp only [weekdayMon0, mondayOfWeek]
    omega
  have h3 : fromIsoywdMonday d.year (isoWeekYW d).2 = some (mondayOfWeek d) := by
    rw [fromIsoywdMonday, if_pos ⟨hwlo, hwhi⟩, hB]
  have h4 : fromIsoywdMonday d.year ((isoWeekYW d).2 + 1) =
      some (mondayOfWeek d + 7) := by
    have hc : 1 ≤ (isoWeekYW d).2 + 1 ∧
        (isoWeekYW d).2 + 1 ≤ isoWeeksInYear d.year := by
      constructor <;> omega
    rw [fromIsoywdMonday, if_pos hc]
    congr 1
    omega
  rw [Timelog.get_week, h3, h4, Option.some_bind, Option.some_bind]
  exact get_time_range_eq_filter _ _ l hs (by omega)

-- ----------------------------------------------------------------------
-- Lemmas about the activity aggregator
-- ----------------------------------------------------------------------

theorem pairsWork_nil : pairsWork [] = 0 := rfl

theorem pairsSlack_nil : pairsSlack [] = 0 := rfl

theorem pairsWork_cons (p : NaiveDateTime) (c : Entry)
    (ps : List (NaiveDateTime × Entry)) :
    pairsWork ((p, c) :: ps) =
      (if isSlackTask c.task then 0 else c.stop.toSecs - p.toSecs) + pairsWork ps := by
  by_cases h : isSlackTask c.task <;>
    simp [pairsWork, List.filter_cons, h, pairDur]

theorem pairsSlack_cons (p : NaiveDateTime) (c : Entry)
    (ps : List (NaiveDateTime × Entry)) :
    pairsSlack ((p, c) :: ps) =
      (if isSlackTask c.task then c.stop.toSecs - p.toSecs else 0) + pairsSlack ps := by
  by_cases h : isSlackTask c.task <;>
    simp [pairsSlack, List.filter_cons, h, pairDur]

theorem sumDurFor_cons (p : NaiveDateTime) (c : Entry)
    (ps : List (NaiveDateTime × Entry)) (t : List Nat) :
    sumDurFor ((p, c) :: ps) t =
      (if c.task = t then c.stop.toSecs - p.toSecs else 0) + sumDurFor ps t := by
  by_cases h : c.task = t <;>
    simp [sumDurFor, List.filter_cons, h, pairDur]

theorem pairsActs_cons (acc : List Activity) (p : NaiveDateTime) (c : Entry)
    (ps : List (NaiveDateTime × Entry)) :
    pairsActs acc ((p, c) :: ps) =
      pairsActs (addDuration acc c.task (c.stop.toSecs - p.toSecs)) ps := rfl

theorem aggLoop_eq (es : List Entry) :
    ∀ (prev : NaiveDateTime) (acts : List Activity) (w s : Int),
    aggLoop prev acts w s es =
      { activities := pairsActs acts ((pairsFrom prev es).filter sameDayPair),
        total_work := w + pairsWork ((pairsFrom prev es).filter sameDayPair),
        total_slack := s + pairsSlack ((pairsFrom prev es).filter sameDayPair) } := by
  induction es with
  | nil =>
    intro prev acts w s
    simp [aggLoop, pairsFrom, pairsActs, pairsWork_nil, pairsSlack_nil]
  | cons e rest ih =>
    intro prev acts w s
    by_cases hd : prev.day = e.stop.day
    · have hfc : (pairsFrom prev (e :: rest)).filter sameDayPair
          = (prev, e) :: (pairsFrom e.stop rest).filter sameDayPair := by
        simp [pairsFrom, List.filter_cons, sameDayPair, hd]
      rw [hfc, pairsActs_cons, pairsWork_cons, pairsSlack_cons]
      by_cases hsl : isSlackTask e.task = true
      · rw [aggLoop, if_neg (by omega : ¬ prev.day ≠ e.stop.day), if_pos hsl,
          ih e.stop, if_pos hsl, if_pos hsl]
        simp only [Activities.mk.injEq]
        refine ⟨trivial, by omega, by omega⟩
      · rw [aggLoop, if_neg (by omega : ¬ prev.day ≠ e.stop.day), if_neg hsl,
          ih e.stop, if_neg hsl, if_neg hsl]
        simp only [Activities.mk.injEq]
        refine ⟨trivial, by omega, by omega⟩
    · have hfc : (pairsFrom prev (e :: rest)).filter sameDayPair
          = (pairsFrom e.stop rest).filter sameDayPair := by
        simp [pairsFrom, List.filter_cons, sameDayPair, hd]
      rw [hfc, aggLoop, if_pos (by omega : prev.day ≠ e.stop.day), ih e.stop]

theorem addDuration_mem (acc : List Activity) (t : List Nat) (d : Int)
    (hnd : (acc.map Activity.name).Nodup) (h : t ∈ acc.map Activity.name) :
    addDuration acc t d =
      acc.map (fun a => if a.name = t
        then { name := a.name, duration := a.duration + d } else a) := by
  induction acc with
  | nil => simp at h
  | cons a rest ih =>
    simp only [List.map_cons, List.nodup_cons] at hnd
    by_cases ha : a.name = t
    · rw [addDuration, if_pos ha]
      have hrest : ∀ x ∈ rest, (if x.name = t
          then { name := x.name, duration := x.duration + d } else x) = x := by
        intro x hx
        have : x.name ≠ t := by
          intro hxt
          exact hnd.1 (by rw [← ha] at hxt; exact hxt ▸ List.mem_map_of_mem Activity.name hx)
        rw [if_neg this]
      rw [List.map_cons, if_pos ha, List.map_congr_left hrest]
      simp
    · rw [addDuration, if_neg ha, List.map_cons, if_neg ha]
      have ht : t ∈ rest.map Activity.name := by
        simp only [List.map_cons, List.mem_cons] at h
        rcases h with h | h
        · exact absurd h.symm ha
        · exact h
      rw [ih hnd.2 ht]

theorem addDuration_notmem (acc : List Activity) (t : List Nat) (d : Int)
    (h : ¬ t ∈ acc.map Activity.name) :
    addDuration acc t d = acc ++ [{ name := t, duration := d }] := by
  induction acc with
  | nil => rfl
  | cons a rest ih =>
    simp only [List.map_cons, List.mem_cons] at h
    push_neg at h
    rw [addDuration, if_neg (fun he => h.1 he.symm), ih h.2, List.cons_append]

theorem firstOccNew_congr (l : List (List Nat)) :
    ∀ (s1 s2 : List (List Nat)), (∀ x, x ∈ s1 ↔ x ∈ s2) →
    firstOccNew s1 l = firstOccNew s2 l := by
  induction l with
  | nil => intro s1 s2 h; rfl
  | cons t ts ih =>
    intro s1 s2 h
    by_cases hm : t ∈ s1
    · rw [firstOccNew, if_pos hm, firstOccNew, if_pos ((h t).mp hm), ih s1 s2 h]
    · rw [firstOccNew, if_neg hm, firstOccNew, if_neg (fun hc => hm ((h t).mpr hc))]
      rw [ih (t :: s1) (t :: s2) (by intro x; simp [h x])]

theorem firstOccNew_not_seen (l : List (List Nat)) :
    ∀ (seen : List (List Nat)) (x : List Nat), x ∈ firstOccNew seen l → ¬ x ∈ seen := by
  induction l with
  | nil => intro seen x hx; simp [firstOccNew] at hx
  | cons t ts ih =>
    intro seen x hx
    by_cases hm : t ∈ seen
    · rw [firstOccNew, if_pos hm] at hx
      exact ih seen x hx
    · rw [firstOccNew, if_neg hm] at hx
      rcases List.mem_cons.mp hx with h | h
      · rw [h]; exact hm
      · have := ih (t :: seen) x h
        intro hc
        exact this (List.mem_cons_of_mem t hc)

theorem firstOccurrences_eq_new (l : List (List Nat)) :
    ∀ (acc : List (List Nat)),
    l.foldl (fun acc t => if t ∈ acc then acc else acc ++ [t]) acc =
      acc ++ firstOccNew acc l := by
  induction l with
  | nil => intro acc; simp [firstOccNew]
  | cons t ts ih =>
    intro acc
    by_cases hm : t ∈ acc
    · rw [List.foldl_cons, if_pos hm, firstOccNew, if_pos hm, ih acc]
    · rw [List.foldl_cons, if_neg hm, firstOccNew, if_neg hm, ih (acc ++ [t])]
      rw [firstOccNew_congr ts (acc ++ [t]) (t :: acc) (by intro x; simp; tauto)]
      simp

theorem firstOccurrences_eq (l : List (List Nat)) :
    firstOccurrences l = firstOccNew [] l := by
  rw [firstOccurrences, firstOccurrences_eq_new l [], List.nil_append]

theorem pairsActs_spec (ps : List (NaiveDateTime × Entry)) :
    ∀ (acc : List Activity), (acc.map Activity.name).Nodup →
    pairsActs acc ps =
      acc.map (fun a => { name := a.name, duration := a.duration + sumDurFor ps a.name }) ++
      (firstOccNew (acc.map Activity.name) (ps.map (fun pc => pc.2.task))).map
        (fun t => { name := t, duration := sumDurFor ps t }) := by
  induction ps with
  | nil =>
    intro acc hnd
    simp [pairsActs, firstOccNew, sumDurFor]
  | cons pc ps ih =>
    intro acc hnd
    obtain ⟨p, c⟩ := pc
    rw [pairsActs_cons]
    by_cases hm : c.task ∈ acc.map Activity.name
    · have hupd := addDuration_mem acc c.task (c.stop.toSecs - p.toSecs) hnd hm
      have hnames : ((acc.map (fun a => if a.name = c.task then { name := a.name, duration := a.duration + (c.stop.toSecs - p.toSecs) } else a)).map Activity.name) = acc.map Activity.name := by
        rw [List.map_map]
        apply List.map_congr_left
        intro a _
        by_cases hat : a.name = c.task <;> simp [Function.comp, hat]
      rw [hupd, ih _ (by rw [hnames]; exact hnd), hnames, List.map_map]
      have hseen : firstOccNew (acc.map Activity.name)
          (((p, c) :: ps).map (fun pc => pc.2.task)) =
          firstOccNew (acc.map Activity.name) (ps.map (fun pc => pc.2.task)) := by
        rw [List.map_cons, firstOccNew, if_pos hm]
      rw [hseen]
      congr 1
      · apply List.map_congr_left
        intro a _
        by_cases hat : a.name = c.task
        · simp only [Function.comp_apply, if_pos hat]
          rw [sumDurFor_cons p c ps a.name, if_pos hat.symm]
          simp only [Activity.mk.injEq]
          exact ⟨trivial, by omega⟩
        · simp only [Function.comp_apply, if_neg hat]
          rw [sumDurFor_cons p c ps a.name,
            if_neg (fun hc => hat hc.symm)]
          simp only [Activity.mk.injEq]
          exact ⟨trivial, by omega⟩
      · apply List.map_congr_left
        intro t ht
        have htn : ¬ t ∈ acc.map Activity.name :=
          firstOccNew_not_seen _ _ t ht
        have htc : ¬ (c.task = t) := fun hc => htn (hc ▸ hm)
        rw [sumDurFor_cons p c ps t, if_neg htc]
        simp only [Activity.mk.injEq]
        exact ⟨trivial, by omega⟩
    · have hupd := addDuration_notmem acc c.task (c.stop.toSecs - p.toSecs) hm
      have hnames : ((acc ++ [({ name := c.task, duration := c.stop.toSecs - p.toSecs } : Activity)]).map Activity.name) = acc.map Activity.name ++ [c.task] := by
        simp
      have hnd2 : ((acc ++ [({ name := c.task, duration := c.stop.toSecs - p.toSecs } : Activity)]).map Activity.name).Nodup := by
        rw [hnames]
        simp only [List.Nodup, List.pairwise_append, List.pairwise_singleton,
          List.mem_singleton, true_and]
        refine ⟨hnd, ?_⟩
        intro a ha b hb
        rw [hb]
        rintro rfl
        exact hm ha
      rw [hupd, ih _ hnd2, hnames]
      have hseen : firstOccNew (acc.map Activity.name ++ [c.task])
          (ps.map (fun pc => pc.2.task)) =
          firstOccNew (c.task :: acc.map Activity.name)
          (ps.map (fun pc => pc.2.task)) := by
        apply firstOccNew_congr
        intro x
        rw [List.mem_append, List.mem_singleton, List.mem_cons]
        tauto
      have hcons : firstOccNew (acc.map Activity.name)
          (((p, c) :: ps).map (fun pc => pc.2.task)) =
          c.task :: firstOccNew (c.task :: acc.map Activity.name)
          (ps.map (fun pc => pc.2.task)) := by
        rw [List.map_cons, firstOccNew, if_neg hm]
      rw [hseen, hcons]
      simp only [List.map_append, List.map_cons, List.map_nil, List.nil_append,
        List.append_assoc, List.singleton_append, List.cons_append]
      congr 1
      · apply List.map_congr_left
        intro a ha
        have han : a.name ∈ acc.map Activity.name := List.mem_map_of_mem _ ha
        have hat : ¬ (c.task = a.name) := fun hc => hm (hc ▸ han)
        rw [sumDurFor_cons p c ps a.name, if_neg hat]
        simp only [Activity.mk.injEq]
        exact ⟨trivial, by omega⟩
      · congr 1
        · dsimp only
          rw [sumDurFor_cons p c ps c.task, if_pos rfl]
        · apply List.map_congr_left
          intro t ht
          have htn := firstOccNew_not_seen _ _ t ht
          have htc : ¬ (c.task = t) := by
            intro hc
            exact htn (hc ▸ List.mem_cons_self c.task _)
          rw [sumDurFor_cons p c ps t, if_neg htc]
          simp only [Activity.mk.injEq]
          exact ⟨trivial, by omega⟩

theorem new_from_entries_eq (es : List Entry) :
    Activities.new_from_entries es =
      { activities := specActivities es, total_work := specWork es,
        total_slack := specSlack es } := by
  cases es with
  | nil => rfl
  | cons e rest =>
    show aggLoop e.stop [] 0 0 rest = _
    rw [aggLoop_eq rest e.stop [] 0 0]
    have hc : (pairsFrom e.stop rest).filter sameDayPair =
        contribPairs (e :: rest) := rfl
    rw [hc]
    simp only [Activities.mk.injEq]
    refine ⟨?_, by simp [specWork], by simp [specSlack]⟩
    rw [pairsActs_spec _ [] (by simp), specActivities, firstOccurrences_eq]
    simp [taskTotal]

-- ----------------------------------------------------------------------
-- Lemmas about get_history
-- ----------------------------------------------------------------------

theorem historyLoop_eq (es : List Entry) :
    ∀ (seen : List (List Nat)),
    historyLoop seen es = firstOccNew seen (es.map (fun e => e.task)) := by
  induction es with
  | nil => intro seen; rfl
  | cons e rest ih =>
    intro seen
    by_cases hm : e.task ∈ seen
    · rw [historyLoop, if_pos hm, List.map_cons, firstOccNew, if_pos hm, ih seen]
    · rw [historyLoop, if_neg hm, List.map_cons, firstOccNew, if_neg hm,
        ih (e.task :: seen)]

theorem firstOccNew_nodup (l : List (List Nat)) :
    ∀ (seen : List (List Nat)), (firstOccNew seen l).Nodup := by
  induction l with
  | nil => intro seen; simp [firstOccNew]
  | cons t ts ih =>
    intro seen
    by_cases hm : t ∈ seen
    · rw [firstOccNew, if_pos hm]
      exact ih seen
    · rw [firstOccNew, if_neg hm]
      refine List.Nodup.cons ?_ (ih (t :: seen))
      intro hc
      exact firstOccNew_not_seen ts (t :: seen) t hc (List.mem_cons_self t seen)

theorem firstOccNew_mem (l : List (List Nat)) :
    ∀ (seen : List (List Nat)) (x : List Nat),
    x ∈ firstOccNew seen l ↔ (x ∈ l ∧ ¬ x ∈ seen) := by
  induction l with
  | nil => intro seen x; simp [firstOccNew]
  | cons t ts ih =>
    intro seen x
    by_cases hm : t ∈ seen
    · rw [firstOccNew, if_pos hm, ih seen x, List.mem_cons]
      constructor
      · rintro ⟨h1, h2⟩
        exact ⟨Or.inr h1, h2⟩
      · rintro ⟨h1 | h1, h2⟩
        · exact absurd (h1 ▸ hm) h2
        · exact ⟨h1, h2⟩
    · rw [firstOccNew, if_neg hm, List.mem_cons, ih (t :: seen) x,
        List.mem_cons, List.mem_cons]
      constructor
      · rintro (rfl | ⟨h1, h2⟩)
        · exact ⟨Or.inl rfl, hm⟩
        · exact ⟨Or.inr h1, fun hc => h2 (Or.inr hc)⟩
      · rintro ⟨rfl | h1, h2⟩
        · exact Or.inl rfl
        · by_cases hxt : x = t
          · exact Or.inl hxt
          · exact Or.inr ⟨h1, fun hc => (by
              rcases hc with hc | hc
              exacts [hxt hc, h2 hc])⟩

-- ----------------------------------------------------------------------
-- Lemmas about Timelog::parse
-- ----------------------------------------------------------------------

theorem parseLines_eq (ls : List (List Nat)) :
    ∀ (prev : Option NaiveDateTime),
    parseLines prev ls =
      if monoFrom prev (ls.filterMap Timelog.parse_line) = true
      then some (ls.filterMap Timelog.parse_line) else none := by
  induction ls with
  | nil => intro prev; simp [parseLines, monoFrom]
  | cons l rest ih =>
    intro prev
    cases hpl : Timelog.parse_line l with
    | none =>
      rw [parseLines, hpl, List.filterMap_cons_none hpl, ih prev]
    | some e =>
      rw [parseLines, hpl, List.filterMap_cons_some hpl]
      cases prev with
      | none =>
        dsimp only
        rw [ih (some e.stop)]
        rw [show monoFrom none (e :: rest.filterMap Timelog.parse_line) =
          monoFrom (some e.stop) (rest.filterMap Timelog.parse_line) from rfl]
        cases hmono : monoFrom (some e.stop) (rest.filterMap Timelog.parse_line) <;>
          simp [hmono]
      | some p =>
        dsimp only
        by_cases hlt : e.stop.toSecs < p.toSecs
        · rw [if_pos hlt]
          rw [show monoFrom (some p) (e :: rest.filterMap Timelog.parse_line) =
            false by rw [monoFrom]; simp [hlt]]
          simp
        · rw [if_neg hlt, ih (some e.stop)]
          rw [show monoFrom (some p) (e :: rest.filterMap Timelog.parse_line) =
            monoFrom (some e.stop) (rest.filterMap Timelog.parse_line) by
              rw [monoFrom]; simp [hlt]]
          cases hmono : monoFrom (some e.stop) (rest.filterMap Timelog.parse_line) <;>
            simp [hmono]

theorem monoFrom_le (es : List Entry) :
    ∀ (p : NaiveDateTime), monoFrom (some p) es = true →
    ∀ e ∈ es, p.toSecs ≤ e.stop.toSecs := by
  induction es with
  | nil => intro p _ e he; simp at he
  | cons x rest ih =>
    intro p hm e he
    rw [monoFrom] at hm
    by_cases hlt : x.stop.toSecs < p.toSecs
    · rw [if_pos hlt] at hm
      exact absurd hm (by simp)
    · rw [if_neg hlt] at hm
      rcases List.mem_cons.mp he with rfl | hrest
      · omega
      · have := ih x.stop hm e hrest
        omega

theorem monoFrom_pairwise (es : List Entry) :
    ∀ (prev : Option NaiveDateTime), monoFrom prev es = true →
    List.Pairwise (fun a b => a.stop.toSecs ≤ b.stop.toSecs) es := by
  induction es with
  | nil => intro prev _; exact List.Pairwise.nil
  | cons x rest ih =>
    intro prev hm
    have hrest : monoFrom (some x.stop) rest = true := by
      cases prev with
      | none => exact hm
      | some p =>
        rw [monoFrom] at hm
        by_cases hlt : x.stop.toSecs < p.toSecs
        · rw [if_pos hlt] at hm
          exact absurd hm (by simp)
        · rw [if_neg hlt] at hm
          exact hm
    exact List.Pairwise.cons (monoFrom_le rest x.stop hrest) (ih _ hrest)

theorem parseLines_skip (pre : List (List Nat)) (line : List Nat) (post : List (List Nat)) :
    ∀ (prev : Option NaiveDateTime), Timelog.parse_line line = none →
    parseLines prev (pre ++ line :: post) = parseLines prev (pre ++ post) := by
  induction pre with
  | nil =>
    intro prev hpl
    rw [List.nil_append, List.nil_append, parseLines, hpl]
  | cons q pre ih =>
    intro prev hpl
    rw [List.cons_append, List.cons_append, parseLines, parseLines]
    cases hq : Timelog.parse_line q with
    | none => exact ih prev hpl
    | some e =>
      cases prev with
      | none =>
        dsimp only
        rw [ih (some e.stop) hpl]
      | some p =>
        dsimp only
        by_cases hlt : e.stop.toSecs < p.toSecs
        · rw [if_pos hlt, if_pos hlt]
        · rw [if_neg hlt, if_neg hlt, ih (some e.stop) hpl]

theorem daysInMonth_ge (y : Int) (m : Nat) : 28 ≤ daysInMonth y m := by
  rw [daysInMonth]
  split_ifs <;> omega

theorem nextDate_day_ne (d : NaiveDate) : (nextDate d).day ≠ d.day := by
  rw [nextDate]
  by_cases h1 : d.day < daysInMonth d.year d.month
  · rw [if_pos h1]
    dsimp only
    omega
  · have h28 := daysInMonth_ge d.year d.month
    by_cases h2 : d.month < 12
    · rw [if_neg h1, if_pos h2]
      dsimp only
      omega
    · rw [if_neg h1, if_neg h2]
      dsimp only
      omega

-- ----------------------------------------------------------------------
-- Claims
-- ----------------------------------------------------------------------

/-- C1: in Activities::new_from_entries over an ordered slice, the first
    entry contributes no duration and only seeds the previous stop; every
    other entry, except the day-boundary entries that the loop skips,
    contributes exactly current.stop - previous.stop, added to the slack
    total when its task starts with the marker followed by a second star,
    otherwise to the work total, and accumulated into that task in the
    per-task breakdown, which lists the tasks in first-occurrence order
    with their filtered duration sums. -/
theorem claim_new_from_entries_spec (es : List Entry) :
    Activities.new_from_entries es =
      { activities := specActivities es, total_work := specWork es,
        total_slack := specSlack es } :=
  new_from_entries_eq es

/-- C2 counterexample: the claim reads the day-boundary rule as a change
    of calendar date, but the code compares chrono Datelike::day, the
    day-of-month number.  Two entries exactly one month apart share the
    day-of-month, so the second one contributes its month-long duration
    to the work total and to the breakdown although its date differs from
    the previous date, where the claim promises no contribution. -/
theorem claim_day_boundary_cex :
    eCross1.stop.date ≠ eCross2.stop.date ∧
    (Activities.new_from_entries [eCross1, eCross2]).total_work ≠ 0 ∧
    (Activities.new_from_entries [eCross1, eCross2]).activities ≠ [] := by
  decide

/-- C2 amended: an entry contributes no duration exactly when the
    previous day-of-month differs from the current day-of-month (not
    the full date): the totals and breakdown come from the same
    day-of-month pairs only, and since consecutive calendar dates always
    differ in day-of-month, no duration ever crosses from the last entry
    of one day to the first entry of the directly following day. -/
theorem claim_day_boundary_amended (es : List Entry) :
    (Activities.new_from_entries es).total_work = specWork es ∧
    (Activities.new_from_entries es).total_slack = specSlack es ∧
    (Activities.new_from_entries es).activities = specActivities es ∧
    (∀ pc : NaiveDateTime × Entry,
      pc.1.day ≠ pc.2.stop.day → ¬ pc ∈ contribPairs es) ∧
    (∀ pc : NaiveDateTime × Entry,
      pc.2.stop.date = nextDate pc.1.date → ¬ pc ∈ contribPairs es) := by
  have hb : ∀ pc : NaiveDateTime × Entry,
      pc.1.day ≠ pc.2.stop.day → ¬ pc ∈ contribPairs es := by
    intro pc hne hc
    have hmem := (List.mem_filter.mp hc).2
    rw [sameDayPair] at hmem
    exact hne (by simpa using hmem)
  refine ⟨?_, ?_, ?_, hb, ?_⟩
  · rw [new_from_entries_eq]
  · rw [new_from_entries_eq]
  · rw [new_from_entries_eq]
  · intro pc hnext
    apply hb
    have hd : pc.2.stop.day = (nextDate pc.1.date).day :=
      congrArg NaiveDate.day hnext
    intro he
    exact nextDate_day_ne pc.1.date (by rw [← hd]; exact he.symm)

/-- C2 amended witness: the midnight boundary between 2022-06-09 and the
    following day 2022-06-10 never contributes. -/
theorem claim_day_boundary_amended_witness :
    ¬ ((eNext1.stop, eNext2) ∈ contribPairs [eNext1, eNext2]) :=
  (claim_day_boundary_amended [eNext1, eNext2]).2.2.2.2
    (eNext1.stop, eNext2) (by decide)

/-- C3: parsing whole text aborts (none) exactly when the accepted
    entries go back in time; equal consecutive timestamps pass; and every
    sequence parse produces is the in-order line-parse sequence, sorted
    non-decreasing by stop. -/
theorem claim_parse_monotonic (raw : List Nat) :
    (Timelog.parse raw = none ↔
      monoFrom none ((splitOnNl raw).filterMap Timelog.parse_line) = false) ∧
    (∀ es, Timelog.parse raw = some es →
      es = (splitOnNl raw).filterMap Timelog.parse_line ∧
      List.Pairwise (fun a b => a.stop.toSecs ≤ b.stop.toSecs) es) := by
  constructor
  · rw [Timelog.parse, parseLines_eq]
    cases hm : monoFrom none ((splitOnNl raw).filterMap Timelog.parse_line) <;>
      simp [hm]
  · intro es hes
    rw [Timelog.parse, parseLines_eq] at hes
    cases hm : monoFrom none ((splitOnNl raw).filterMap Timelog.parse_line) with
    | false =>
      rw [hm] at hes
      simp at hes
    | true =>
      rw [hm] at hes
      simp at hes
      rw [← hes]
      exact ⟨rfl, monoFrom_pairwise _ none hm⟩

/-- C3 witness: a concrete log going back in time aborts, and a concrete
    log with two equal consecutive timestamps parses and is sorted. -/
theorem claim_parse_monotonic_witness :
    Timelog.parse badRaw = none ∧
    List.Pairwise (fun a b => a.stop.toSecs ≤ b.stop.toSecs) eqEntries :=
  ⟨(claim_parse_monotonic badRaw).1.mpr (by decide),
   ((claim_parse_monotonic eqRaw).2 eqEntries (by decide)).2⟩

/-- C5 counterexample to the claim that get_week returns exactly the
    stored entries of the ISO week containing the date: at 2019-12-30,
    a date whose ISO week-year 2020 differs from its calendar year, the
    code reads week 1 of 2019 and misses the entry; an entry lying
    exactly on the following Monday 00:00 is included although the claim
    excludes the right endpoint; and for 2020-12-28, in the last ISO week
    of 2020, the week + 1 lookup fails and the code panics (none). -/
theorem claim_get_week_cex :
    Timelog.get_week [eDec30] { year := 2019, month := 12, day := 30 } ≠
      some (isoWeekEntries [eDec30] { year := 2019, month := 12, day := 30 }) ∧
    Timelog.get_week [eJun13] { year := 2022, month := 6, day := 8 } ≠
      some (isoWeekEntries [eJun13] { year := 2022, month := 6, day := 8 }) ∧
    Timelog.get_week [] { year := 2020, month := 12, day := 28 } = none := by
  decide

/-- C5 amended: for a sorted store and a date whose ISO week-year equals
    its calendar year and whose ISO week is not the last ISO week of that
    year, get_week returns exactly the stored entries with stop from
    Monday 00:00 of that ISO week up to AND INCLUDING Monday 00:00 of the
    following week (the right end is closed because get_time_range is
    end-inclusive). -/
theorem claim_get_week_amended (l : List Entry) (d : NaiveDate)
    (hs : sortedByStop l)
    (h1 : (isoWeekYW d).1 = d.year)
    (h2 : (isoWeekYW d).2 < isoWeeksInYear d.year) :
    Timelog.get_week l d =
      some (l.filter (inRange (mondayOfWeek d * 86400)
        ((mondayOfWeek d + 7) * 86400))) :=
  get_week_same_year l d hs h1 h2

/-- C5 amended witness at the week of 2022-06-08. -/
theorem claim_get_week_amended_witness :
    Timelog.get_week [eJun9] { year := 2022, month := 6, day := 8 } =
      some [eJun9] := by
  have h := claim_get_week_amended [eJun9] { year := 2022, month := 6, day := 8 }
    (by simp [sortedByStop]) (by decide) (by decide)
  rw [h]
  decide

/-- C6 counterexample: on a non-empty store with begin after end the
    first position exceeds the last and the Rust slice operation panics
    (none here), while the maximal sub-sequence the claim promises would
    be the empty list. -/
theorem claim_get_time_range_cex :
    Timelog.get_time_range [eJun9]
        (eJun9.stop.toSecs + 1) (eJun9.stop.toSecs - 1) = none ∧
    [eJun9].filter
        (inRange (eJun9.stop.toSecs + 1) (eJun9.stop.toSecs - 1)) = [] := by
  decide

/-- C6 amended: for a store sorted by stop (the store invariant) and
    begin ≤ end, get_time_range returns the maximal contiguous
    sub-sequence with begin ≤ stop ≤ end, located by the two findIdx
    positions; an empty store returns an empty slice for every begin and
    end and never panics. -/
theorem claim_get_time_range_amended :
    (∀ (l : List Entry) (b e : Int), sortedByStop l → b ≤ e →
      Timelog.get_time_range l b e = some (l.filter (inRange b e))) ∧
    (∀ (b e : Int), Timelog.get_time_range [] b e = some []) := by
  constructor
  · intro l b e hs hbe
    exact get_time_range_eq_filter b e l hs hbe
  · intro b e
    rfl

/-- C6 amended witness on a one-entry store with a surrounding range. -/
theorem claim_get_time_range_amended_witness :
    Timelog.get_time_range [eJun9]
        (eJun9.stop.toSecs - 10) (eJun9.stop.toSecs + 10) = some [eJun9] := by
  have h := claim_get_time_range_amended.1 [eJun9]
    (eJun9.stop.toSecs - 10) (eJun9.stop.toSecs + 10)
    (by simp [sortedByStop]) (by omega)
  rw [h]
  decide

/-- C7: get_history returns the distinct task names of the slice in
    first-occurrence order, each exactly once, never reordered: it equals
    the spec-side stable de-duplication, has no duplicates, contains
    exactly the task names occurring in the slice, and an empty slice
    gives an empty list. -/
theorem claim_get_history (es : List Entry) :
    Timelog.get_history es = firstOccurrences (es.map (fun e => e.task)) ∧
    (Timelog.get_history es).Nodup ∧
    (∀ t : List Nat, t ∈ Timelog.get_history es ↔ t ∈ es.map (fun e => e.task)) ∧
    Timelog.get_history [] = ([] : List (List Nat)) := by
  refine ⟨?_, ?_, ?_, rfl⟩
  · rw [Timelog.get_history, historyLoop_eq es [], firstOccurrences_eq]
  · rw [Timelog.get_history, historyLoop_eq es []]
    exact firstOccNew_nodup _ []
  · intro t
    rw [Timelog.get_history, historyLoop_eq es [], firstOccNew_mem]
    simp

/-- C9: add appends exactly one entry carrying the given task text
    unchanged and the injected clock value; all previously stored
    entries, their order, and the file path are untouched, and no
    monotonicity validation happens: the equations hold for every clock
    value, including one before the last stored stop. -/
theorem claim_add (tl : Timelog) (now : NaiveDateTime) (task : List Nat) :
    (Timelog.add tl now task).entries =
      tl.entries ++ [{ stop := now, task := task }] ∧
    (Timelog.add tl now task).filename = tl.filename :=
  ⟨rfl, rfl⟩

/-- C10: for a store sorted by stop and begin ≤ end, the first position
    is at most the last position, which is at most the length, so the
    slice is in bounds and get_time_range does not panic. -/
theorem claim_get_time_range_no_panic (l : List Entry) (b e : Int)
    (hs : sortedByStop l) (hbe : b ≤ e) :
    l.findIdx (fun x => decide (b ≤ x.stop.toSecs)) ≤
      l.findIdx (fun x => decide (e < x.stop.toSecs)) ∧
    l.findIdx (fun x => decide (e < x.stop.toSecs)) ≤ l.length ∧
    (Timelog.get_time_range l b e).isSome = true := by
  refine ⟨first_le_last l b e hbe, List.findIdx_le_length _, ?_⟩
  rw [get_time_range_eq_filter b e l hs hbe]
  rfl

/-- C10 witness on a concrete sorted one-entry store. -/
theorem claim_get_time_range_no_panic_witness :
    (Timelog.get_time_range [eJun9] 0 1).isSome = true :=
  (claim_get_time_range_no_panic [eJun9] 0 1
    (by simp [sortedByStop]) (by omega)).2.2

-- ----------------------------------------------------------------------
-- Lemmas about lines, trimming and the separator split
-- ----------------------------------------------------------------------

theorem splitOnNl_ne_nil (s : List Nat) : splitOnNl s ≠ [] := by
  cases s with
  | nil => simp [splitOnNl]
  | cons c rest =>
    rw [splitOnNl]
    by_cases hc : c == 10
    · rw [if_pos hc]
      simp
    · rw [if_neg hc]
      cases h : splitOnNl rest <;> simp

theorem splitOnNl_no_nl (raw : List Nat) :
    ∀ l ∈ splitOnNl raw, ¬ (10 : Nat) ∈ l := by
  induction raw with
  | nil =>
    intro l hl
    simp [splitOnNl] at hl
    simp [hl]
  | cons c rest ih =>
    intro l hl
    rw [splitOnNl] at hl
    by_cases hc : c == 10
    · rw [if_pos hc] at hl
      rcases List.mem_cons.mp hl with rfl | h
      · simp
      · exact ih l h
    · rw [if_neg hc] at hl
      cases hsp : splitOnNl rest with
      | nil => exact absurd hsp (splitOnNl_ne_nil rest)
      | cons l0 ls =>
        rw [hsp] at hl
        rcases List.mem_cons.mp hl with rfl | h
        · intro hmem
          rcases List.mem_cons.mp hmem with h10 | h10
          · exact hc (by rw [← h10]; rfl)
          · exact ih l0 (hsp ▸ List.mem_cons_self l0 ls) h10
        · exact ih l (hsp ▸ List.mem_cons_of_mem l0 h)

theorem splitOnNl_append (a b : List Nat) (ha : ¬ (10 : Nat) ∈ a) :
    splitOnNl (a ++ 10 :: b) = a :: splitOnNl b := by
  induction a with
  | nil =>
    rw [List.nil_append, splitOnNl, if_pos (by rfl)]
  | cons c a2 ih =>
    have hc : ¬ c == 10 := by
      simp only [List.mem_cons] at ha
      push_neg at ha
      intro hx
      exact ha.1 ((beq_iff_eq.mp hx).symm)
    rw [List.cons_append, splitOnNl, if_neg hc,
      ih (fun hm => ha (List.mem_cons_of_mem c hm))]

theorem head_dropWhile_false (p : Nat → Bool) (l : List Nat) :
    ∀ c, (l.dropWhile p).head? = some c → p c = false := by
  induction l with
  | nil => intro c hc; simp at hc
  | cons a l2 ih =>
    intro c hc
    rw [List.dropWhile_cons] at hc
    by_cases hp : p a = true
    · rw [if_pos hp] at hc
      exact ih c hc
    · rw [if_neg hp] at hc
      simp at hc
      rw [← hc]
      simpa using hp

theorem dropWhile_eq_self_of_head (p : Nat → Bool) (l : List Nat)
    (h : ∀ c, l.head? = some c → p c = false) : l.dropWhile p = l := by
  cases l with
  | nil => rfl
  | cons a l2 =>
    rw [List.dropWhile_cons, if_neg (by rw [h a rfl]; simp)]

theorem trimStr_eq_self (s : List Nat)
    (h1 : ∀ c, s.head? = some c → isWS c = false)
    (h2 : ∀ c, s.getLast? = some c → isWS c = false) : trimStr s = s := by
  rw [trimStr, dropWhile_eq_self_of_head isWS s h1]
  rw [dropWhile_eq_self_of_head isWS s.reverse
    (by intro c hc; rw [List.head?_reverse] at hc; exact h2 c hc)]
  exact List.reverse_reverse s

theorem trimStr_getLast (s : List Nat) :
    ∀ c, (trimStr s).getLast? = some c → isWS c = false := by
  intro c hc
  rw [trimStr, List.getLast?_reverse] at hc
  exact head_dropWhile_false isWS _ c hc

theorem trimStr_subset (s : List Nat) : ∀ c ∈ trimStr s, c ∈ s := by
  intro c hc
  rw [trimStr, List.mem_reverse] at hc
  have h1 : c ∈ (s.dropWhile isWS).reverse :=
    (List.dropWhile_sublist isWS).mem hc
  rw [List.mem_reverse] at h1
  exact (List.dropWhile_sublist isWS).mem h1

theorem splitOnceCS_eq (s : List Nat) :
    ∀ p q, splitOnceCS s = some (p, q) → s = p ++ 58 :: 32 :: q := by
  induction s with
  | nil => intro p q h; simp [splitOnceCS] at h
  | cons c1 rest ih =>
    intro p q h
    cases rest with
    | nil => simp [splitOnceCS] at h
    | cons c2 r2 =>
      rw [splitOnceCS] at h
      by_cases hc : c1 == 58 && c2 == 32
      · rw [if_pos hc] at h
        simp only [Option.some.injEq, Prod.mk.injEq] at h
        obtain ⟨hp, hq⟩ := h
        simp only [Bool.and_eq_true, beq_iff_eq] at hc
        rw [← hp, ← hq, hc.1, hc.2, List.nil_append]
      · rw [if_neg hc] at h
        cases hsp : splitOnceCS (c2 :: r2) with
        | none => rw [hsp] at h; simp at h
        | some p2 =>
          rw [hsp] at h
          simp only [Option.some.injEq, Prod.mk.injEq] at h
          obtain ⟨hp, hq⟩ := h
          rw [← hp, ← hq, List.cons_append]
          rw [← ih p2.1 p2.2 (by rw [hsp])]

theorem splitOnceCS_skipc (c : Nat) (rest : List Nat) (h : ¬ c = 58) :
    splitOnceCS (c :: rest) =
      (splitOnceCS rest).map (fun p => (c :: p.1, p.2)) := by
  cases rest with
  | nil => simp [splitOnceCS]
  | cons c2 r2 =>
    rw [splitOnceCS, if_neg (by simp [h])]
    cases hsp : splitOnceCS (c2 :: r2) <;> simp

theorem splitOnceCS_colon (c2 : Nat) (rest : List Nat) (h : ¬ c2 = 32) :
    splitOnceCS (58 :: c2 :: rest) =
      (splitOnceCS (c2 :: rest)).map (fun p => ((58 : Nat) :: p.1, p.2)) := by
  rw [splitOnceCS, if_neg (by simp [h])]
  cases hsp : splitOnceCS (c2 :: rest) <;> simp

theorem splitOnceCS_sep (task : List Nat) :
    splitOnceCS (58 :: 32 :: task) = some ([], task) := by
  rw [splitOnceCS, if_pos (by simp)]

theorem splitOnceCS_prepend (a : List Nat) (tail : List Nat) (h : ∀ c ∈ a, ¬ c = 58) :
    splitOnceCS (a ++ tail) =
      (splitOnceCS tail).map (fun p => (a ++ p.1, p.2)) := by
  induction a with
  | nil =>
    rw [List.nil_append]
    cases hsp : splitOnceCS tail <;> simp
  | cons c a2 ih =>
    rw [List.cons_append,
      splitOnceCS_skipc c (a2 ++ tail) (h c (List.mem_cons_self c a2)),
      ih (fun x hx => h x (List.mem_cons_of_mem c hx))]
    cases hsp : splitOnceCS tail <;> simp

theorem daysInMonth_le (y : Int) (m : Nat) : daysInMonth y m ≤ 31 := by
  rw [daysInMonth]
  split_ifs <;> omega

theorem splitOnce_fmtEntry (e : Entry) (hv : ValidDT e.stop) :
    splitOnceCS (fmtEntry e) = some (fmtDT e.stop, e.task) := by
  obtain ⟨hy0, hy1, hm0, hm1, hd0, hd1, hh, hmi, hsec⟩ := hv
  have hy : e.stop.year.toNat ≤ 9999 := by omega
  have hd31 : e.stop.day ≤ 31 := le_trans hd1 (daysInMonth_le _ _)
  have hEq : fmtEntry e =
      ([48 + e.stop.year.toNat / 1000, 48 + e.stop.year.toNat / 100 % 10,
        48 + e.stop.year.toNat / 10 % 10, 48 + e.stop.year.toNat % 10, 45,
        48 + e.stop.month / 10, 48 + e.stop.month % 10, 45,
        48 + e.stop.day / 10, 48 + e.stop.day % 10, 32,
        48 + e.stop.hour / 10, 48 + e.stop.hour % 10] : List Nat) ++
        (58 :: (48 + e.stop.minute / 10) :: (48 + e.stop.minute % 10) ::
          58 :: 32 :: e.task) := by
    simp [fmtEntry, fmtDT, fmt4, fmt2]
  have h1 : ∀ c ∈ ([48 + e.stop.year.toNat / 1000, 48 + e.stop.year.toNat / 100 % 10,
        48 + e.stop.year.toNat / 10 % 10, 48 + e.stop.year.toNat % 10, 45,
        48 + e.stop.month / 10, 48 + e.stop.month % 10, 45,
        48 + e.stop.day / 10, 48 + e.stop.day % 10, 32,
        48 + e.stop.hour / 10, 48 + e.stop.hour % 10] : List Nat), ¬ c = 58 := by
    intro c hc
    simp only [List.mem_cons, List.not_mem_nil, or_false] at hc
    omega
  have h2 : ¬ (48 + e.stop.minute / 10) = 32 := by omega
  have h3 : ¬ (48 + e.stop.minute / 10) = 58 := by omega
  have h4 : ¬ (48 + e.stop.minute % 10) = 58 := by omega
  rw [hEq, splitOnceCS_prepend _ _ h1, splitOnceCS_colon _ _ h2,
    splitOnceCS_skipc _ _ h3, splitOnceCS_skipc _ _ h4, splitOnceCS_sep]
  simp [fmtDT, fmt4, fmt2]

theorem parseTime_fmtDT (t : NaiveDateTime) (hv : ValidDT t) :
    parseTime (fmtDT t) = some t := by
  obtain ⟨ty, tmo, tda, tho, tmi, tse⟩ := t
  obtain ⟨hy0, hy1, hm0, hm1, hd0, hd1, hh, hmi, hsec⟩ := hv
  dsimp only at hy0 hy1 hm0 hm1 hd0 hd1 hh hmi hsec
  have hy : ty.toNat ≤ 9999 := by omega
  have hd31 : tda ≤ 31 := le_trans hd1 (daysInMonth_le _ _)
  have hEq : fmtDT ⟨ty, tmo, tda, tho, tmi, tse⟩ =
      ([48 + ty.toNat / 1000, 48 + ty.toNat / 100 % 10,
        48 + ty.toNat / 10 % 10, 48 + ty.toNat % 10, 45,
        48 + tmo / 10, 48 + tmo % 10, 45,
        48 + tda / 10, 48 + tda % 10, 32,
        48 + tho / 10, 48 + tho % 10, 58,
        48 + tmi / 10, 48 + tmi % 10] : List Nat) := by
    simp [fmtDT, fmt4, fmt2]
  rw [hEq]
  simp only [parseTime]
  split_ifs with hc1 hc2
  · simp only [Option.some.injEq, NaiveDateTime.mk.injEq, digitVal]
    refine ⟨?_, ?_, ?_, ?_, ?_, ?_⟩ <;> omega
  · exfalso
    apply hc2
    simp only [Bool.and_eq_true, decide_eq_true_eq, digitVal]
    have hdd : (48 + tda / 10 - 48) * 10 + (48 + tda % 10 - 48) = tda := by
      omega
    have hyy : ((48 + ty.toNat / 1000 - 48) * 1000 +
        (48 + ty.toNat / 100 % 10 - 48) * 100 +
        (48 + ty.toNat / 10 % 10 - 48) * 10 +
        (48 + ty.toNat % 10 - 48) : Nat) = ty.toNat := by
      omega
    have hmm2 : (48 + tmo / 10 - 48) * 10 + (48 + tmo % 10 - 48) = tmo := by
      omega
    have hym : ((ty.toNat : Int)) = ty := by omega
    rw [hyy, hym, hmm2, hdd]
    omega
  · exfalso
    apply hc1
    simp only [Bool.and_eq_true, beq_iff_eq, isDigitCh, decide_eq_true_eq,
      true_and, and_true, eq_self_iff_true]
    omega

theorem getLast_append_ne (l1 l2 : List Nat) (h : l2 ≠ []) :
    (l1 ++ l2).getLast? = l2.getLast? := by
  induction l1 with
  | nil => rfl
  | cons c l1 ih =>
    have hne : l1 ++ l2 ≠ [] := by simp [h]
    cases hx : l1 ++ l2 with
    | nil => exact absurd hx hne
    | cons d r =>
      rw [List.cons_append, hx, List.getLast?_cons_cons, ← hx, ih]

theorem fmtEntry_head (e : Entry) :
    (fmtEntry e).head? = some (48 + e.stop.year.toNat / 1000) := by
  simp [fmtEntry, fmtDT, fmt4, fmt2]

theorem fmtEntry_getLast (e : Entry) (h : e.task ≠ []) :
    (fmtEntry e).getLast? = e.task.getLast? := by
  rw [fmtEntry]
  exact getLast_append_ne _ _ h

theorem fmtDT_no_nl (t : NaiveDateTime) : ¬ (10 : Nat) ∈ fmtDT t := by
  intro hc
  simp [fmtDT, fmt4, fmt2] at hc
  omega

theorem fmtEntry_no_nl (e : Entry) (ht : ∀ c ∈ e.task, c ≠ 10) :
    ¬ (10 : Nat) ∈ fmtEntry e := by
  intro hc
  rw [fmtEntry] at hc
  rcases List.mem_append.mp hc with h | h
  · rcases List.mem_append.mp h with h2 | h2
    · exact fmtDT_no_nl e.stop h2
    · simp at h2
  · exact ht 10 h rfl

theorem trim_fmtEntry (e : Entry) (_hv : ValidDT e.stop) (ht : TaskInv e.task) :
    trimStr (fmtEntry e) = fmtEntry e := by
  apply trimStr_eq_self
  · intro c hc
    rw [fmtEntry_head e] at hc
    simp only [Option.some.injEq] at hc
    simp only [isWS, decide_eq_false_iff_not]
    omega
  · intro c hc
    rw [fmtEntry_getLast e ht.1] at hc
    exact ht.2.2 c hc

theorem parse_line_fmtEntry (e : Entry) (hv : ValidDT e.stop)
    (ht : TaskInv e.task) :
    Timelog.parse_line (fmtEntry e) = some e := by
  simp only [Timelog.parse_line]
  rw [trim_fmtEntry e hv ht]
  have hne : ¬ (fmtEntry e = []) := by
    intro hc
    have := fmtEntry_head e
    rw [hc] at this
    simp at this
  rw [if_neg hne, splitOnce_fmtEntry e hv]
  dsimp only
  rw [parseTime_fmtDT e.stop hv]

theorem parseTime_valid (s : List Nat) (dt : NaiveDateTime)
    (h : parseTime s = some dt) : ValidDT dt := by
  unfold parseTime at h
  split at h
  case _ y1 y2 y3 y4 s1 m1 m2 s2 d1 d2 s3 h1 h2 s4 n1 n2 =>
    split at h
    case _ hc1 =>
      simp only [] at h
      split at h
      case _ hc2 =>
        simp only [Option.some.injEq] at h
        subst h
        simp only [Bool.and_eq_true, decide_eq_true_eq] at hc2
        simp only [Bool.and_eq_true, beq_iff_eq, isDigitCh, decide_eq_true_eq] at hc1
        simp only [digitVal] at hc1 hc2 ⊢
        rw [ValidDT]
        refine ⟨?_, ?_, ?_, ?_, ?_, ?_, ?_, ?_, rfl⟩ <;> dsimp only <;> omega
      case _ => exact absurd h (by simp)
    case _ => exact absurd h (by simp)
  case _ =>
    simp at h

theorem parse_line_inv (l : List Nat) (e : Entry)
    (h : Timelog.parse_line l = some e) :
    ValidDT e.stop ∧ e.task ≠ [] ∧ (∀ c ∈ e.task, c ∈ l) ∧
    (∀ c, e.task.getLast? = some c → isWS c = false) := by
  simp only [Timelog.parse_line] at h
  by_cases he : trimStr l = []
  · rw [if_pos he] at h
    simp at h
  · rw [if_neg he] at h
    cases hsp : splitOnceCS (trimStr l) with
    | none =>
      rw [hsp] at h
      simp at h
    | some p =>
      rw [hsp] at h
      dsimp only at h
      cases hpt : parseTime p.1 with
      | none =>
        rw [hpt] at h
        simp at h
      | some dt =>
        rw [hpt] at h
        simp only [Option.some.injEq] at h
        subst h
        have hsplit := splitOnceCS_eq (trimStr l) p.1 p.2 hsp
        have hq : p.2 ≠ [] := by
          intro hq0
          have hlast : (trimStr l).getLast? = some 32 := by
            rw [hsplit, hq0]
            rw [show p.1 ++ 58 :: 32 :: ([] : List Nat) =
              (p.1 ++ [58]) ++ [32] by simp]
            exact List.getLast?_concat _
          have := trimStr_getLast l 32 hlast
          simp [isWS] at this
        refine ⟨parseTime_valid p.1 dt hpt, hq, ?_, ?_⟩
        · intro c hc
          apply trimStr_subset l
          rw [hsplit]
          simp [hc]
        · intro c hc
          apply trimStr_getLast l
          rw [hsplit, show p.1 ++ 58 :: 32 :: p.2 =
            (p.1 ++ [58, 32]) ++ p.2 by simp, getLast_append_ne _ _ hq]
          exact hc

theorem roundtrip_loop (es : List Entry) :
    ∀ (prevT : Option NaiveDateTime) (prevD : Option NaiveDate),
    (∀ e ∈ es, ValidDT e.stop ∧ TaskInv e.task) →
    monoFrom prevT es = true →
    parseLines prevT (splitOnNl (formatLoop prevD es)) = some es := by
  induction es with
  | nil =>
    intro prevT prevD _ _
    rfl
  | cons e rest ih =>
    intro prevT prevD hval hmono
    have hv := (hval e (List.mem_cons_self e rest)).1
    have ht := (hval e (List.mem_cons_self e rest)).2
    have hnl : ¬ (10 : Nat) ∈ fmtEntry e := fmtEntry_no_nl e ht.2.1
    have hrest_val : ∀ x ∈ rest, ValidDT x.stop ∧ TaskInv x.task :=
      fun x hx => hval x (List.mem_cons_of_mem e hx)
    have hmono_rest : monoFrom (some e.stop) rest = true := by
      cases prevT with
      | none => exact hmono
      | some p =>
        rw [monoFrom] at hmono
        by_cases hlt : e.stop.toSecs < p.toSecs
        · rw [if_pos hlt] at hmono
          exact absurd hmono (by simp)
        · rw [if_neg hlt] at hmono
          exact hmono
    have hcore : parseLines prevT
        (fmtEntry e :: splitOnNl (formatLoop (some e.stop.date) rest)) =
        some (e :: rest) := by
      rw [parseLines, parse_line_fmtEntry e hv ht]
      cases prevT with
      | none =>
        dsimp only
        rw [ih (some e.stop) (some e.stop.date) hrest_val hmono_rest]
      | some p =>
        dsimp only
        rw [monoFrom] at hmono
        by_cases hlt : e.stop.toSecs < p.toSecs
        · rw [if_pos hlt] at hmono
          exact absurd hmono (by simp)
        · rw [if_neg hlt]
          rw [ih (some e.stop) (some e.stop.date) hrest_val hmono_rest]
    cases prevD with
    | none =>
      have hfmt : formatLoop none (e :: rest) =
          fmtEntry e ++ 10 :: formatLoop (some e.stop.date) rest := by
        rw [formatLoop]
        simp
      rw [hfmt, splitOnNl_append _ _ hnl]
      exact hcore
    | some pd =>
      by_cases hpd : pd ≠ e.stop.date
      · have hfmt : formatLoop (some pd) (e :: rest) =
            10 :: (fmtEntry e ++ 10 :: formatLoop (some e.stop.date) rest) := by
          rw [formatLoop]
          rw [if_pos hpd]
          simp
        rw [hfmt]
        rw [show splitOnNl (10 :: (fmtEntry e ++ 10 ::
            formatLoop (some e.stop.date) rest)) =
          [] :: splitOnNl (fmtEntry e ++ 10 ::
            formatLoop (some e.stop.date) rest) from by
          rw [splitOnNl]
          simp]
        rw [splitOnNl_append _ _ hnl]
        rw [parseLines, show Timelog.parse_line [] = none from rfl]
        exact hcore
      · have hfmt : formatLoop (some pd) (e :: rest) =
            fmtEntry e ++ 10 :: formatLoop (some e.stop.date) rest := by
          rw [formatLoop]
          rw [if_neg hpd]
          simp
        rw [hfmt, splitOnNl_append _ _ hnl]
        exact hcore

/-- C4: parsing valid text, serializing the result with format_store
    (entries in stored order, one blank line exactly where the date
    changes, none before the first entry), and re-parsing yields an
    Entry-for-Entry identical sequence. -/
theorem claim_parse_format_roundtrip (raw : List Nat) (es : List Entry)
    (h : Timelog.parse raw = some es) :
    Timelog.parse (Timelog.format_store es) = some es := by
  have h2 := h
  rw [Timelog.parse, parseLines_eq] at h2
  cases hm : monoFrom none ((splitOnNl raw).filterMap Timelog.parse_line) with
  | false =>
    rw [hm] at h2
    simp at h2
  | true =>
    rw [hm] at h2
    simp only [if_true] at h2
    have hes : (splitOnNl raw).filterMap Timelog.parse_line = es := by
      simpa using h2
    have hval : ∀ e ∈ es, ValidDT e.stop ∧ TaskInv e.task := by
      intro e he
      rw [← hes] at he
      obtain ⟨l, hl, hpl⟩ := List.mem_filterMap.mp he
      obtain ⟨hvd, htne, hsub, hlastws⟩ := parse_line_inv l e hpl
      exact ⟨hvd, htne,
        fun c hc h10 => (splitOnNl_no_nl raw l hl) (h10 ▸ hsub c hc), hlastws⟩
    have hmono2 : monoFrom none es = true := by
      rw [← hes]
      exact hm
    rw [Timelog.parse, Timelog.format_store]
    exact roundtrip_loop es none none hval hmono2

/-- C4 witness: a concrete three-entry two-day log round-trips. -/
theorem claim_parse_format_roundtrip_witness :
    Timelog.parse (Timelog.format_store sampleEntries) = some sampleEntries :=
  claim_parse_format_roundtrip sampleRaw sampleEntries (by decide)

theorem parseLinesFull_skip (pre : List (List Nat)) (line : List Nat)
    (post : List (List Nat)) :
    ∀ (prev : Option NaiveDateTime), Timelog.parse_line_full line = none →
    parseLinesFull prev (pre ++ line :: post) = parseLinesFull prev (pre ++ post) := by
  induction pre with
  | nil =>
    intro prev hpl
    rw [List.nil_append, List.nil_append, parseLinesFull, hpl]
  | cons q pre ih =>
    intro prev hpl
    rw [List.cons_append, List.cons_append, parseLinesFull, parseLinesFull]
    cases hq : Timelog.parse_line_full q with
    | none => exact ih prev hpl
    | some e =>
      cases prev with
      | none =>
        dsimp only
        rw [ih (some e.stop) hpl]
      | some p =>
        dsimp only
        by_cases hlt : e.stop.toSecs < p.toSecs
        · rw [if_pos hlt, if_pos hlt]
        · rw [if_neg hlt, if_neg hlt, ih (some e.stop) hpl]

/-- C8 counterexample: the claim reads the skip criterion as the fixed
    zero-padded format YYYY-MM-DD HH:MM, but chrono parse_from_str
    ignores padding when parsing, so the unpadded line with month 6 and
    day 9 fails the literal sixteen-character format (parseTime) yet the
    program parses it into an entry; likewise a no-break space, which
    the full Unicode str::trim removes but the ASCII reading keeps,
    turns a line the claim classifies as skipped into an accepted one. -/
theorem claim_parse_line_cex :
    parseTime (strLit ("2022-6-9 06:02")) = none ∧
    parse_from_str (strLit ("2022-6-9 06:02")) = some ⟨2022, 6, 9, 6, 2, 0⟩ ∧
    Timelog.parse_line (strLit ("2022-6-9 06:02: x")) = none ∧
    Timelog.parse_line_full (strLit ("2022-6-9 06:02: x")) =
      some ⟨⟨2022, 6, 9, 6, 2, 0⟩, strLit ("x")⟩ ∧
    Timelog.parse_line (160 :: strLit ("2022-06-09 06:02: a")) = none ∧
    Timelog.parse_line_full (160 :: strLit ("2022-06-09 06:02: a")) =
      some ⟨⟨2022, 6, 9, 6, 2, 0⟩, strLit ("a")⟩ := by
  decide

/-- C8 amended: single-line parsing is line-scoped and recoverable, with
    the skip criterion of the code rather than the literal zero-padded
    format: a line whose Unicode trim is empty yields no entry; a line
    without the colon-space separator yields none; a line whose time
    part the lenient chrono parser parse_from_str rejects yields none;
    on success the task is exactly the text after the first separator,
    not trimmed further; and a skipped line never affects the parse of
    the surrounding lines. -/
theorem claim_parse_line_amended (line : List Nat) :
    (trimUnicode line = [] → Timelog.parse_line_full line = none) ∧
    (splitOnceCS (trimUnicode line) = none → Timelog.parse_line_full line = none) ∧
    (∀ tp tk, splitOnceCS (trimUnicode line) = some (tp, tk) →
      parse_from_str tp = none → Timelog.parse_line_full line = none) ∧
    (∀ tp tk dt, splitOnceCS (trimUnicode line) = some (tp, tk) →
      parse_from_str tp = some dt →
      Timelog.parse_line_full line = some { stop := dt, task := tk }) ∧
    (∀ (pre post : List (List Nat)) (prev : Option NaiveDateTime),
      Timelog.parse_line_full line = none →
      parseLinesFull prev (pre ++ line :: post) = parseLinesFull prev (pre ++ post)) := by
  refine ⟨?_, ?_, ?_, ?_, ?_⟩
  · intro h
    simp only [Timelog.parse_line_full]
    rw [if_pos h]
  · intro h
    by_cases he : trimUnicode line = []
    · simp only [Timelog.parse_line_full]
      rw [if_pos he]
    · simp only [Timelog.parse_line_full]
      rw [if_neg he, h]
  · intro tp tk h hpt
    have he : ¬ trimUnicode line = [] := by
      intro hc
      rw [hc] at h
      simp [splitOnceCS] at h
    simp only [Timelog.parse_line_full]
    rw [if_neg he, h]
    dsimp only
    rw [hpt]
  · intro tp tk dt h hpt
    have he : ¬ trimUnicode line = [] := by
      intro hc
      rw [hc] at h
      simp [splitOnceCS] at h
    simp only [Timelog.parse_line_full]
    rw [if_neg he, h]
    dsimp only
    rw [hpt]
  · intro pre post prev h
    exact parseLinesFull_skip pre line post prev h

/-- C8 amended witness: a concrete line with an unpadded hour field is
    split at the first colon-space and accepted, the task taken verbatim. -/
theorem claim_parse_line_amended_witness :
    splitOnceCS (trimUnicode (strLit ("2022-10-03 7:05: doc"))) =
      some (strLit ("2022-10-03 7:05"), strLit ("doc")) ∧
    Timelog.parse_line_full (strLit ("2022-10-03 7:05: doc")) =
      some { stop := ⟨2022, 10, 3, 7, 5, 0⟩, task := strLit ("doc") } :=
  ⟨by decide,
    (claim_parse_line_amended (strLit ("2022-10-03 7:05: doc"))).2.2.2.1
      (strLit ("2022-10-03 7:05")) (strLit ("doc")) ⟨2022, 10, 3, 7, 5, 0⟩
      (by decide) (by decide)⟩
